import Mathlib

/-!
Verification of the capture-decode-buffer pipeline of the STM32 microphone
monitor (`stm32_mic_monitor.py`, `simple_mic.py`).

The development shallowly embeds:
* the text decoder `STM32MicMonitor.parse_line` together with the regex
  `A(\d):\s+MIN=\s*(-?\d+)\s+MAX=\s*(-?\d+)\s+AMP=(\d+)\.(\d+)mV\s+RMS=(\d+)\.(\d+)mV`
  (the regex is deterministic: each greedy quantifier is followed by a literal
  outside the quantified character class, so first-match backtracking search
  and maximal munch coincide; `re.match` anchors at the start only, so
  trailing characters after the final `mV` are allowed);
* the per-channel bounded series (`collections.deque(maxlen=max_points)`);
* the capture-loop body of `read_serial` with its `try/except` boundary;
* the sampling-frequency estimator of `read_serial`;
* the x-axis windowing policy of `MonitorGUI.adjust_axis_scale` /
  `MonitorGUI.update_plots`;
* a binary frame decoder modelled from the spec (the repository sources
  contain no binary decoder).

Floats of the Python code are modelled as rationals; character classes `\s`
and `\d` are modelled over their ASCII ranges (the device protocol is ASCII).
-/

namespace MicMon

/-! ## Definitions: the embedded data model and operations -/

/-- ASCII whitespace as matched by the regex class `\s`
(space, tab, newline, carriage return, vertical tab, form feed). -/
def isWs (c : Char) : Bool :=
  c == ' ' || c == '\t' || c == '\n' || c == '\r' || c == '\x0b' || c == '\x0c'

/-- ASCII digit, as matched by the regex class `\d`. -/
def isDig (c : Char) : Bool := c.isDigit

/-- Numeric value of one digit character (`int` of a one-char digit string). -/
def digitVal (c : Char) : Nat := c.toNat - 48

/-- `int` of a nonempty digit string. -/
def natOfDigits (ds : List Char) : Nat :=
  ds.foldl (fun n c => 10 * n + digitVal c) 0

/-- `int` of an optionally `-`-signed digit string (regex group `-?\d+`). -/
def intVal (neg : Bool) (ds : List Char) : Int :=
  if neg then -(natOfDigits ds : Int) else (natOfDigits ds : Int)

/-- The characters of an optionally signed number. -/
def numStr (neg : Bool) (ds : List Char) : List Char :=
  (if neg then ['-'] else []) ++ ds

/-- Match a literal character sequence at the head of the input. -/
def lit : List Char → List Char → Option (List Char)
  | [], r => some r
  | c :: cs, r =>
    match r with
    | [] => none
    | x :: xs => if x = c then lit cs xs else none

/-- Match a single digit (regex `(\d)`). -/
def digit1 (l : List Char) : Option (Char × List Char) :=
  match l with
  | c :: r => if isDig c then some (c, r) else none
  | [] => none

/-- Match a maximal nonempty digit run (regex `(\d+)`). -/
def digits1 (l : List Char) : Option (List Char × List Char) :=
  if (l.takeWhile isDig).isEmpty then none
  else some (l.takeWhile isDig, l.dropWhile isDig)

/-- Match a maximal nonempty whitespace run (regex `\s+`). -/
def ws1 (l : List Char) : Option (List Char) :=
  if (l.takeWhile isWs).isEmpty then none else some (l.dropWhile isWs)

/-- Skip a maximal, possibly empty whitespace run (regex `\s*`). -/
def ws0 (l : List Char) : List Char := l.dropWhile isWs

/-- Match an optionally signed maximal digit run (regex `(-?\d+)`). -/
def sInt (l : List Char) : Option (Int × List Char) :=
  match l with
  | [] => none
  | c :: r =>
    if c = '-' then
      (digits1 r).map (fun p => (-(natOfDigits p.1 : Int), p.2))
    else
      (digits1 (c :: r)).map (fun p => ((natOfDigits p.1 : Int), p.2))

/-- Regex prefix `A(\d):` — the channel tag. -/
def parseHeader (l : List Char) : Option (Char × List Char) :=
  (lit ['A'] l).bind fun r0 =>
  (digit1 r0).bind fun (c, r1) =>
  (lit [':'] r1).map fun r2 => (c, r2)

/-- Regex fragment `\s+<tag>\s*(-?\d+)` — a signed integer field
(`MIN=` and `MAX=`; the regex puts `\s*` after the `=` of these two tags). -/
def parseSigned (tag : List Char) (l : List Char) : Option (Int × List Char) :=
  (ws1 l).bind fun r0 =>
  (lit tag r0).bind fun r1 =>
  sInt (ws0 r1)

/-- Regex fragment `\s+<tag>(\d+)\.(\d+)mV` — a fixed-point millivolt field
(`AMP=` and `RMS=`; no whitespace is allowed after the `=` of these tags). -/
def parseFix (tag : List Char) (l : List Char) :
    Option (List Char × List Char × List Char) :=
  (ws1 l).bind fun r0 =>
  (lit tag r0).bind fun r1 =>
  (digits1 r1).bind fun (a, r2) =>
  (lit ['.'] r2).bind fun r3 =>
  (digits1 r3).bind fun (b, r4) =>
  (lit ['m', 'V'] r4).map fun r5 => (a, b, r5)

/-- One decoded measurement, as returned by `parse_line`
(the dict `{mic, min, max, amplitude, rms}`). -/
structure Sample where
  mic : Nat
  min : Int
  max : Int
  amplitude : ℚ
  rms : ℚ
deriving DecidableEq, Repr

/-- `STM32MicMonitor.parse_line`: matches the pattern
`A(\d):\s+MIN=\s*(-?\d+)\s+MAX=\s*(-?\d+)\s+AMP=(\d+)\.(\d+)mV\s+RMS=(\d+)\.(\d+)mV`
at the start of the line and reconstructs the values
(`amplitude = amp_int + amp_dec / 1000.0`, `rms = rms_int + rms_dec / 1000.0`);
returns `none` ("no match") when the line does not match. -/
def parseLine (l : List Char) : Option Sample :=
  (parseHeader l).bind fun (c, r1) =>
  (parseSigned ['M', 'I', 'N', '='] r1).bind fun (mn, r2) =>
  (parseSigned ['M', 'A', 'X', '='] r2).bind fun (mx, r3) =>
  (parseFix ['A', 'M', 'P', '='] r3).bind fun (ai, ad, r4) =>
  (parseFix ['R', 'M', 'S', '='] r4).bind fun (ri, rd, _r5) =>
  some { mic := digitVal c, min := mn, max := mx,
         amplitude := (natOfDigits ai : ℚ) + (natOfDigits ad : ℚ) / 1000,
         rms := (natOfDigits ri : ℚ) + (natOfDigits rd : ℚ) / 1000 }

/-- The constituents of a line matching the wire pattern: channel digit,
the six whitespace runs, the signed `MIN`/`MAX` numbers, the digit runs of
the `AMP`/`RMS` fixed-point values, and the trailing characters after the
final `mV` (allowed because `re.match` does not anchor the end). -/
structure WireParts where
  chan : Char
  w1 : List Char
  w2 : List Char
  w3 : List Char
  w4 : List Char
  w5 : List Char
  w6 : List Char
  mneg : Bool
  mds : List Char
  xneg : Bool
  xds : List Char
  ai : List Char
  ad : List Char
  ri : List Char
  rd : List Char
  suf : List Char

/-- Well-formedness of the constituents: the channel tag is a digit, the
`\s+` runs are nonempty whitespace, the `\s*` runs are whitespace, and every
number is a nonempty digit run. -/
def WireParts.good (p : WireParts) : Prop :=
  isDig p.chan = true ∧
  p.w1 ≠ [] ∧ (∀ x ∈ p.w1, isWs x = true) ∧
  (∀ x ∈ p.w2, isWs x = true) ∧
  p.mds ≠ [] ∧ (∀ x ∈ p.mds, isDig x = true) ∧
  p.w3 ≠ [] ∧ (∀ x ∈ p.w3, isWs x = true) ∧
  (∀ x ∈ p.w4, isWs x = true) ∧
  p.xds ≠ [] ∧ (∀ x ∈ p.xds, isDig x = true) ∧
  p.w5 ≠ [] ∧ (∀ x ∈ p.w5, isWs x = true) ∧
  p.ai ≠ [] ∧ (∀ x ∈ p.ai, isDig x = true) ∧
  p.ad ≠ [] ∧ (∀ x ∈ p.ad, isDig x = true) ∧
  p.w6 ≠ [] ∧ (∀ x ∈ p.w6, isWs x = true) ∧
  p.ri ≠ [] ∧ (∀ x ∈ p.ri, isDig x = true) ∧
  p.rd ≠ [] ∧ (∀ x ∈ p.rd, isDig x = true)

/-- The text of the line with the given constituents. -/
def WireParts.render (p : WireParts) : List Char :=
  'A' :: p.chan :: ':' ::
    (p.w1 ++ (['M', 'I', 'N', '='] ++ (p.w2 ++ (numStr p.mneg p.mds ++
    (p.w3 ++ (['M', 'A', 'X', '='] ++ (p.w4 ++ (numStr p.xneg p.xds ++
    (p.w5 ++ (['A', 'M', 'P', '='] ++ (p.ai ++ ('.' :: (p.ad ++ ('m' :: 'V' ::
    (p.w6 ++ (['R', 'M', 'S', '='] ++ (p.ri ++ ('.' :: (p.rd ++
    ('m' :: 'V' :: p.suf))))))))))))))))))))

/-- The sample the decoder reconstructs from such a line: channel and the
two extrema exactly as written, and `int_part + frac_part / 1000` for the
two millivolt values. -/
def WireParts.sample (p : WireParts) : Sample :=
  { mic := digitVal p.chan,
    min := intVal p.mneg p.mds,
    max := intVal p.xneg p.xds,
    amplitude := (natOfDigits p.ai : ℚ) + (natOfDigits p.ad : ℚ) / 1000,
    rms := (natOfDigits p.ri : ℚ) + (natOfDigits p.rd : ℚ) / 1000 }

instance decidableGood (p : WireParts) : Decidable p.good := by
  unfold WireParts.good
  infer_instance

/-- A line is wire-shaped when it is the rendering of well-formed parts. -/
def WireShaped (l : List Char) : Prop :=
  ∃ p : WireParts, p.good ∧ p.render = l

/-- Constituents of the spec example line
`A2:  MIN=-120 MAX=340 AMP=12.500mV RMS=8.250mV`. -/
def exParts : WireParts :=
  { chan := '2', w1 := [' ', ' '], w2 := [], w3 := [' '], w4 := [], w5 := [' '],
    w6 := [' '], mneg := true, mds := ['1', '2', '0'], xneg := false,
    xds := ['3', '4', '0'], ai := ['1', '2'], ad := ['5', '0', '0'],
    ri := ['8'], rd := ['2', '5', '0'], suf := [] }

/-- Constituents of `A2:  MIN=-120 MAX=340 AMP=12.5mV RMS=8.250mV`
(one-digit fractional part). -/
def exPartsShortFrac : WireParts :=
  { exParts with ad := ['5'] }

/-- Constituents of `A2:  MIN=-120 MAX=340 AMP=12.5000mV RMS=8.250mV`
(four-digit fractional part). -/
def exPartsLongFrac : WireParts :=
  { exParts with ad := ['5', '0', '0', '0'] }

/-- The last `n` elements of a list, in order. -/
def lastN {α : Type} (n : Nat) (l : List α) : List α := l.drop (l.length - n)

/-- A bounded series: `collections.deque(maxlen = maxlen)`. `buf` holds the
elements oldest-first; the capacity is fixed at construction. -/
structure Dq (α : Type) where
  maxlen : Nat
  buf : List α
deriving DecidableEq, Repr

/-- `deque(maxlen = n)`: an empty series of capacity `n`. -/
def Dq.empty (α : Type) (n : Nat) : Dq α := ⟨n, []⟩

/-- `deque.append`: add at the tail; once `maxlen` elements are held the
oldest (leftmost) element is evicted. -/
def Dq.push {α : Type} (d : Dq α) (a : α) : Dq α :=
  ⟨d.maxlen, lastN d.maxlen (d.buf ++ [a])⟩

/-- Append a whole sequence, one element at a time. -/
def Dq.pushAll {α : Type} (d : Dq α) (xs : List α) : Dq α :=
  xs.foldl Dq.push d

/-- The per-channel data of `STM32MicMonitor.data`: for each of the five
metric keys, one bounded series per microphone (channels 0–5). -/
structure Store where
  time : Fin 6 → Dq ℚ
  rms : Fin 6 → Dq ℚ
  min : Fin 6 → Dq Int
  max : Fin 6 → Dq Int
  amplitude : Fin 6 → Dq ℚ

/-- The dict built in `__init__`: every series empty, capacity `max_points`. -/
def Store.empty (n : Nat) : Store :=
  { time := fun _ => Dq.empty ℚ n, rms := fun _ => Dq.empty ℚ n,
    min := fun _ => Dq.empty Int n, max := fun _ => Dq.empty Int n,
    amplitude := fun _ => Dq.empty ℚ n }

/-- The append block of `read_serial` (lines 130–134): append the elapsed
time and the parsed values to the five series of the sample's channel. -/
def Store.appendSample (st : Store) (p : Sample) (now : ℚ) (h : p.mic < 6) :
    Store :=
  let i : Fin 6 := ⟨p.mic, h⟩
  { time := Function.update st.time i ((st.time i).push now),
    rms := Function.update st.rms i ((st.rms i).push p.rms),
    min := Function.update st.min i ((st.min i).push p.min),
    max := Function.update st.max i ((st.max i).push p.max),
    amplitude := Function.update st.amplitude i ((st.amplitude i).push p.amplitude) }

/-- The decoded sample of the example line, used by several witnesses. -/
def sampleEx : Sample :=
  { mic := 2, min := -120, max := 340, amplitude := 25 / 2, rms := 33 / 4 }

/-- The estimator's state: `sample_count`, `last_sample_time` and the
published `sampling_freq`. Wall-clock instants are rationals (seconds). -/
structure Freq where
  sampleCount : Nat
  lastSampleTime : ℚ
  samplingFreq : ℚ
deriving DecidableEq, Repr

/-- One sample arrival at instant `now`:
`sample_count += 1; elapsed = now - last_sample_time;
if elapsed >= 1.0: sampling_freq = sample_count / elapsed;
sample_count = 0; last_sample_time = now`.
(The code calls `time.time()` twice in the branch; both calls are modelled
as the same instant `now`.) -/
def freqStep (f : Freq) (now : ℚ) : Freq :=
  let count := f.sampleCount + 1
  let elapsed := now - f.lastSampleTime
  if 1 ≤ elapsed then
    { sampleCount := 0, lastSampleTime := now,
      samplingFreq := ((count : Nat) : ℚ) / elapsed }
  else
    { f with sampleCount := count }

/-- A fault raised inside the `try` block: an I/O error from the serial read,
or the `IndexError` from indexing `data[...][mic_num]` with `mic_num > 5`. -/
inductive Fault
  | ioError
  | indexError
deriving DecidableEq, Repr

/-- What one loop iteration observes: no pending bytes, one received line
(with the current instant), or a transport fault during the read. -/
inductive Event
  | noData
  | line (s : List Char) (now : ℚ)
  | fault (f : Fault)

/-- The externally visible actions of one iteration. -/
inductive Effect
  | report (f : Fault)
  | sleep (d : ℚ)
deriving DecidableEq, Repr

/-- `time.sleep(0.001)` at the end of the `try` block. -/
def pollSleep : ℚ := 1 / 1000

/-- `time.sleep(0.1)` in the `except` handler. -/
def backoffSleep : ℚ := 1 / 10

/-- The mutable state the loop touches: the `running` flag, the channel
store and the frequency estimator. -/
structure MState where
  running : Bool
  store : Store
  freq : Freq

/-- The body of the `try` block for one iteration, with faults surfaced in
the `Except` layer: a read fault propagates; a line is parsed, and a parsed
sample is appended (`data['time'][mic_num]` raises `IndexError` before any
mutation when `mic_num > 5`, since the five lists have six entries each);
the body ends with the 1 ms poll sleep. -/
def loopBodyInner (st : MState) (ev : Event) :
    Except Fault (MState × List Effect) :=
  match ev with
  | .fault f => .error f
  | .noData => .ok (st, [.sleep pollSleep])
  | .line s now =>
    match parseLine s with
    | none => .ok (st, [.sleep pollSleep])
    | some p =>
      if h : p.mic < 6 then
        .ok ({ st with
               store := st.store.appendSample p now h,
               freq := freqStep st.freq now }, [.sleep pollSleep])
      else .error .indexError

/-- One full iteration: the `try/except` boundary of `read_serial`. Every
fault of the body is caught; the handler prints the error (reported) and
sleeps 0.1 s before the next iteration. -/
def loopBody (st : MState) (ev : Event) : MState × List Effect :=
  match loopBodyInner st ev with
  | .ok r => r
  | .error f => (st, [.report f, .sleep backoffSleep])

/-- `while self.running:` — the loop consumes events while `running` holds;
clearing `running` (done only by `stop_reading`) ends it. -/
def runLoop : MState → List Event → MState × List Effect
  | st, [] => (st, [])
  | st, e :: es =>
    if st.running then
      let r := loopBody st e
      let r2 := runLoop r.1 es
      (r2.1, r.2 ++ r2.2)
    else (st, [])

/-- `update_plots` lines 512–515: `current_time` starts at 0 and is raised to
the last timestamp of every nonempty channel series — the latest timestamp
known across all channels. -/
def currentTimeOf (times : Fin 6 → List ℚ) : ℚ :=
  (List.finRange 6).foldl
    (fun acc i =>
      match (times i).getLast? with
      | some t => max acc t
      | none => acc)
    0

/-- The x-limits `adjust_axis_scale` leaves on an axis. In sliding-window
mode (`show_all_time` unset) the code sets
`xlim = (max(0, current_time - time_window), current_time)`, reading the
window width from the entry field and falling back to 30.0 on `ValueError`
(the `Option` argument: `none` models an unparseable field). With
"show full history" set it sets no x-limit and the preceding
`relim()`/`autoscale_view()` fits the axis to the plotted data; that
autoscale is modelled as the exact data extent `[dataLo, dataHi]`
(the proportional margins matplotlib adds are a rendering detail). -/
def adjustXlim (showAll : Bool) (wField : Option ℚ) (t : ℚ)
    (dataLo dataHi : ℚ) : ℚ × ℚ :=
  if showAll then (dataLo, dataHi)
  else (max 0 (t - wField.getD 30), t)

/-- A store state with a single retained sample, at t = 5, on channel 0. -/
def singleLateTimes : Fin 6 → List ℚ := fun i => if i = 0 then [5] else []

/-- The spec's windowing example: timestamps 0, 1, ..., 50 on channel 0. -/
def specTimes : Fin 6 → List ℚ :=
  fun i => if i = 0 then (List.range 51).map (fun n => (n : ℚ)) else []

/-- Modelled from the spec: the signed 16-bit value of a little-endian
two-byte quantity (spec 4.2 / 6, "little-endian signed 16-bit integers");
the repository sources contain no binary decoder. -/
def toInt16 (v : Nat) : Int :=
  if v < 32768 then (v : Int) else (v : Int) - 65536

/-- Modelled from the spec: the six samples of one complete 12-byte frame,
"one per channel, in channel order", each the little-endian signed 16-bit
interpretation of the next two bytes; fewer than 12 bytes is not a frame. -/
def frameVals : List Nat → List Int
  | b0 :: b1 :: b2 :: b3 :: b4 :: b5 :: b6 :: b7 :: b8 :: b9 :: b10 :: b11 :: _ =>
    [toInt16 (b0 + 256 * b1), toInt16 (b2 + 256 * b3), toInt16 (b4 + 256 * b5),
     toInt16 (b6 + 256 * b7), toInt16 (b8 + 256 * b9), toInt16 (b10 + 256 * b11)]
  | _ => []

/-- Modelled from the spec: the binary decoder "decodes as many complete
fixed-size frames as it contains; a frame is exactly `channel_count × 2 = 12`
bytes"; "partial trailing bytes (fewer than one frame) are left unconsumed
and must be available for the next call". Returns the decoded frames and the
unconsumed remainder. -/
def decodeFrames (buf : List Nat) : List (List Int) × List Nat :=
  if h : 12 ≤ buf.length then
    let rest := decodeFrames (buf.drop 12)
    (frameVals (buf.take 12) :: rest.1, rest.2)
  else ([], buf)
termination_by buf.length
decreasing_by
  simp only [List.length_drop]
  omega

/-! ## Theorems -/

lemma ws_not_dig {c : Char} (h : isWs c = true) : isDig c = false := by
  unfold isWs at h
  simp only [Bool.or_eq_true, beq_iff_eq] at h
  rcases h with ((((rfl | rfl) | rfl) | rfl) | rfl) | rfl <;> decide

lemma numStr_true (ds : List Char) : numStr true ds = '-' :: ds := rfl

lemma numStr_false (ds : List Char) : numStr false ds = ds := rfl

lemma dig_not_ws {c : Char} (h : isDig c = true) : isWs c = false := by
  by_contra hw
  have hw' : isWs c = true := by
    cases hws : isWs c
    · exact absurd hws hw
    · rfl
  rw [ws_not_dig hw'] at h
  exact Bool.false_ne_true h

lemma dig_ne_hyphen {c : Char} (h : isDig c = true) : ¬(c = '-') := by
  intro he
  subst he
  exact Bool.false_ne_true h

lemma takeWhile_append_all {p : Char → Bool} {a : List Char} (b : List Char)
    (ha : ∀ c ∈ a, p c = true) (hb : ∀ c, b.head? = some c → p c = false) :
    (a ++ b).takeWhile p = a := by
  induction a with
  | nil =>
    simp only [List.nil_append]
    cases b with
    | nil => rfl
    | cons x xs => simp [List.takeWhile_cons, hb x rfl]
  | cons x xs ih =>
    have hx : p x = true := ha x (List.mem_cons_self x xs)
    simp [List.takeWhile_cons, hx, ih (fun c hc => ha c (List.mem_cons_of_mem x hc))]

lemma dropWhile_append_all {p : Char → Bool} {a : List Char} (b : List Char)
    (ha : ∀ c ∈ a, p c = true) (hb : ∀ c, b.head? = some c → p c = false) :
    (a ++ b).dropWhile p = b := by
  induction a with
  | nil =>
    simp only [List.nil_append]
    cases b with
    | nil => rfl
    | cons x xs => simp [List.dropWhile_cons, hb x rfl]
  | cons x xs ih =>
    have hx : p x = true := ha x (List.mem_cons_self x xs)
    simp [List.dropWhile_cons, hx, ih (fun c hc => ha c (List.mem_cons_of_mem x hc))]

lemma head_dropWhile {p : Char → Bool} :
    ∀ (l : List Char) (c : Char), (l.dropWhile p).head? = some c → p c = false := by
  intro l
  induction l with
  | nil => intro c h; simp at h
  | cons x xs ih =>
    intro c h
    rw [List.dropWhile_cons] at h
    by_cases hx : p x = true
    · rw [if_pos hx] at h
      exact ih c h
    · rw [if_neg hx] at h
      rw [List.head?_cons, Option.some.injEq] at h
      subst h
      exact Bool.not_eq_true _ |>.mp hx

lemma lit_eq : ∀ (s r : List Char), lit s (s ++ r) = some r := by
  intro s
  induction s with
  | nil => intro r; rfl
  | cons c cs ih => intro r; simp [lit, ih r]

lemma lit_some : ∀ {s l r : List Char}, lit s l = some r → l = s ++ r := by
  intro s
  induction s with
  | nil =>
    intro l r h
    simp only [lit, Option.some.injEq] at h
    simp [h]
  | cons c cs ih =>
    intro l r h
    cases l with
    | nil => exact absurd h (by simp [lit])
    | cons x xs =>
      simp only [lit] at h
      by_cases hx : x = c
      · rw [if_pos hx] at h
        subst hx
        rw [List.cons_append]
        exact congrArg (x :: ·) (ih h)
      · rw [if_neg hx] at h
        exact absurd h (by simp)

lemma digit1_eq {c : Char} (r : List Char) (h : isDig c = true) :
    digit1 (c :: r) = some (c, r) := by
  simp [digit1, h]

lemma digit1_some {l : List Char} {c : Char} {r : List Char}
    (h : digit1 l = some (c, r)) : l = c :: r ∧ isDig c = true := by
  cases l with
  | nil => exact absurd h (by simp [digit1])
  | cons x xs =>
    simp only [digit1] at h
    by_cases hx : isDig x = true
    · rw [if_pos hx] at h
      simp only [Option.some.injEq, Prod.mk.injEq] at h
      obtain ⟨hc, hr⟩ := h
      subst hc; subst hr
      exact ⟨rfl, hx⟩
    · rw [if_neg hx] at h
      exact absurd h (by simp)

lemma digits1_eq {ds : List Char} (r : List Char) (hne : ds ≠ [])
    (hall : ∀ x ∈ ds, isDig x = true)
    (hhd : ∀ x, r.head? = some x → isDig x = false) :
    digits1 (ds ++ r) = some (ds, r) := by
  unfold digits1
  rw [takeWhile_append_all r hall hhd, dropWhile_append_all r hall hhd]
  simp [hne]

lemma digits1_some {l ds r : List Char} (h : digits1 l = some (ds, r)) :
    l = ds ++ r ∧ ds ≠ [] ∧ (∀ x ∈ ds, isDig x = true) ∧
      (∀ x, r.head? = some x → isDig x = false) := by
  unfold digits1 at h
  by_cases he : (l.takeWhile isDig).isEmpty = true
  · rw [if_pos he] at h
    exact absurd h (by simp)
  · rw [if_neg he] at h
    simp only [Option.some.injEq, Prod.mk.injEq] at h
    obtain ⟨hds, hr⟩ := h
    subst hds; subst hr
    refine ⟨(List.takeWhile_append_dropWhile isDig l).symm, ?_, ?_, ?_⟩
    · intro hnil
      rw [hnil] at he
      exact he rfl
    · intro x hx
      exact List.mem_takeWhile_imp hx
    · intro x hx
      exact head_dropWhile l x hx

lemma ws1_eq {w : List Char} (r : List Char) (hne : w ≠ [])
    (hall : ∀ x ∈ w, isWs x = true)
    (hhd : ∀ x, r.head? = some x → isWs x = false) :
    ws1 (w ++ r) = some r := by
  unfold ws1
  rw [takeWhile_append_all r hall hhd, dropWhile_append_all r hall hhd]
  simp [hne]

lemma ws1_some {l r : List Char} (h : ws1 l = some r) :
    ∃ w, l = w ++ r ∧ w ≠ [] ∧ (∀ x ∈ w, isWs x = true) ∧
      (∀ x, r.head? = some x → isWs x = false) := by
  unfold ws1 at h
  by_cases he : (l.takeWhile isWs).isEmpty = true
  · rw [if_pos he] at h
    exact absurd h (by simp)
  · rw [if_neg he] at h
    simp only [Option.some.injEq] at h
    subst h
    refine ⟨l.takeWhile isWs, (List.takeWhile_append_dropWhile isWs l).symm, ?_, ?_, ?_⟩
    · intro hnil
      rw [hnil] at he
      exact he rfl
    · intro x hx
      exact List.mem_takeWhile_imp hx
    · intro x hx
      exact head_dropWhile l x hx

lemma ws0_eq {w : List Char} (r : List Char)
    (hall : ∀ x ∈ w, isWs x = true)
    (hhd : ∀ x, r.head? = some x → isWs x = false) :
    ws0 (w ++ r) = r :=
  dropWhile_append_all r hall hhd

lemma ws0_decomp (l : List Char) :
    ∃ w, l = w ++ ws0 l ∧ (∀ x ∈ w, isWs x = true) := by
  exact ⟨l.takeWhile isWs, (List.takeWhile_append_dropWhile isWs l).symm,
    fun x hx => List.mem_takeWhile_imp hx⟩

lemma numStr_head_not_ws {neg : Bool} {ds : List Char} (r : List Char)
    (hne : ds ≠ []) (hall : ∀ x ∈ ds, isDig x = true) :
    ∀ x, (numStr neg ds ++ r).head? = some x → isWs x = false := by
  intro x hx
  cases neg with
  | true =>
    rw [numStr_true, List.cons_append, List.head?_cons, Option.some.injEq] at hx
    subst hx
    decide
  | false =>
    cases ds with
    | nil => exact absurd rfl hne
    | cons d ds' =>
      rw [numStr_false, List.cons_append, List.head?_cons, Option.some.injEq] at hx
      subst hx
      exact dig_not_ws (hall d (List.mem_cons_self d ds'))

lemma wsRun_head_not_dig {w : List Char} (r : List Char)
    (hne : w ≠ []) (hall : ∀ x ∈ w, isWs x = true) :
    ∀ x, (w ++ r).head? = some x → isDig x = false := by
  intro x hx
  cases w with
  | nil => exact absurd rfl hne
  | cons y w' =>
    rw [List.cons_append, List.head?_cons, Option.some.injEq] at hx
    subst hx
    exact ws_not_dig (hall y (List.mem_cons_self y w'))

lemma sInt_eq {neg : Bool} {ds : List Char} (r : List Char) (hne : ds ≠ [])
    (hall : ∀ x ∈ ds, isDig x = true)
    (hhd : ∀ x, r.head? = some x → isDig x = false) :
    sInt (numStr neg ds ++ r) = some (intVal neg ds, r) := by
  cases neg with
  | true =>
    rw [numStr_true, List.cons_append]
    simp only [sInt]
    rw [if_pos trivial, digits1_eq r hne hall hhd]
    simp [intVal]
  | false =>
    cases ds with
    | nil => exact absurd rfl hne
    | cons d ds' =>
      rw [numStr_false, List.cons_append]
      simp only [sInt]
      rw [if_neg (dig_ne_hyphen (hall d (List.mem_cons_self d ds')))]
      rw [show d :: (ds' ++ r) = (d :: ds') ++ r from (List.cons_append d ds' r).symm]
      rw [digits1_eq r hne hall hhd]
      simp [intVal]

lemma sInt_some {l : List Char} {v : Int} {r : List Char}
    (h : sInt l = some (v, r)) :
    ∃ neg ds, l = numStr neg ds ++ r ∧ ds ≠ [] ∧ (∀ x ∈ ds, isDig x = true) ∧
      (∀ x, r.head? = some x → isDig x = false) ∧ v = intVal neg ds := by
  cases l with
  | nil => exact absurd h (by simp [sInt])
  | cons c t =>
    simp only [sInt] at h
    by_cases hc : c = '-'
    · rw [if_pos hc] at h
      subst hc
      rw [Option.map_eq_some'] at h
      obtain ⟨⟨ds, r'⟩, hd, hv⟩ := h
      obtain ⟨hteq, hne, hall, hhd⟩ := digits1_some hd
      simp only [Prod.mk.injEq] at hv
      obtain ⟨hv1, hv2⟩ := hv
      subst hteq; subst hv2
      refine ⟨true, ds, ?_, hne, hall, hhd, ?_⟩
      · simp [numStr]
      · simp [intVal, hv1.symm]
    · rw [if_neg hc] at h
      rw [Option.map_eq_some'] at h
      obtain ⟨⟨ds, r'⟩, hd, hv⟩ := h
      obtain ⟨hteq, hne, hall, hhd⟩ := digits1_some hd
      simp only [Prod.mk.injEq] at hv
      obtain ⟨hv1, hv2⟩ := hv
      subst hv2
      refine ⟨false, ds, ?_, hne, hall, hhd, ?_⟩
      · simp [numStr, hteq]
      · simp [intVal, hv1.symm]

lemma head_cons_not_ws {c : Char} (l : List Char) (hc : isWs c = false) :
    ∀ x, ((c :: l) : List Char).head? = some x → isWs x = false := by
  intro x hx
  rw [List.head?_cons, Option.some.injEq] at hx
  subst hx
  exact hc

lemma head_cons_not_dig {c : Char} (l : List Char) (hc : isDig c = false) :
    ∀ x, ((c :: l) : List Char).head? = some x → isDig x = false := by
  intro x hx
  rw [List.head?_cons, Option.some.injEq] at hx
  subst hx
  exact hc

lemma parseHeader_eq {c : Char} (r : List Char) (hc : isDig c = true) :
    parseHeader ('A' :: c :: ':' :: r) = some (c, r) := by
  have h1 : lit ['A'] ('A' :: c :: ':' :: r) = some (c :: ':' :: r) :=
    lit_eq ['A'] (c :: ':' :: r)
  have h2 : digit1 (c :: ':' :: r) = some (c, ':' :: r) := digit1_eq _ hc
  have h3 : lit [':'] (':' :: r) = some r := lit_eq [':'] r
  simp [parseHeader, h1, h2, h3]

lemma parseHeader_some {l : List Char} {c : Char} {r : List Char}
    (h : parseHeader l = some (c, r)) : l = 'A' :: c :: ':' :: r ∧ isDig c = true := by
  unfold parseHeader at h
  rw [Option.bind_eq_some] at h
  obtain ⟨r0, ha, h⟩ := h
  rw [Option.bind_eq_some] at h
  obtain ⟨⟨c', r1⟩, hd, h⟩ := h
  simp only [Option.map_eq_some'] at h
  obtain ⟨r2, hl, hcr⟩ := h
  rw [Prod.mk.injEq] at hcr
  obtain ⟨hc', hr'⟩ := hcr
  subst hc'
  subst hr'
  obtain ⟨hr0, hcd⟩ := digit1_some hd
  have hla := lit_some ha
  have hlb := lit_some hl
  subst hr0
  subst hlb
  subst hla
  exact ⟨rfl, hcd⟩

lemma parseSigned_eq {tag w1 w2 : List Char} {neg : Bool} {ds : List Char}
    (r : List Char)
    (hw1 : w1 ≠ []) (hw1a : ∀ x ∈ w1, isWs x = true)
    (htag : ∀ x, (tag ++ (w2 ++ (numStr neg ds ++ r))).head? = some x → isWs x = false)
    (hw2a : ∀ x ∈ w2, isWs x = true)
    (hds : ds ≠ []) (hdsa : ∀ x ∈ ds, isDig x = true)
    (hr : ∀ x, r.head? = some x → isDig x = false) :
    parseSigned tag (w1 ++ (tag ++ (w2 ++ (numStr neg ds ++ r))))
      = some (intVal neg ds, r) := by
  have h1 : ws1 (w1 ++ (tag ++ (w2 ++ (numStr neg ds ++ r))))
      = some (tag ++ (w2 ++ (numStr neg ds ++ r))) := ws1_eq _ hw1 hw1a htag
  have h2 : lit tag (tag ++ (w2 ++ (numStr neg ds ++ r)))
      = some (w2 ++ (numStr neg ds ++ r)) := lit_eq _ _
  have h3 : ws0 (w2 ++ (numStr neg ds ++ r)) = numStr neg ds ++ r :=
    ws0_eq _ hw2a (numStr_head_not_ws _ hds hdsa)
  have h4 : sInt (numStr neg ds ++ r) = some (intVal neg ds, r) := sInt_eq r hds hdsa hr
  simp [parseSigned, h1, h2, h3, h4]

lemma parseSigned_some {tag l : List Char} {v : Int} {r : List Char}
    (h : parseSigned tag l = some (v, r)) :
    ∃ w1 w2 neg ds, l = w1 ++ (tag ++ (w2 ++ (numStr neg ds ++ r))) ∧
      w1 ≠ [] ∧ (∀ x ∈ w1, isWs x = true) ∧ (∀ x ∈ w2, isWs x = true) ∧
      ds ≠ [] ∧ (∀ x ∈ ds, isDig x = true) ∧ v = intVal neg ds := by
  unfold parseSigned at h
  rw [Option.bind_eq_some] at h
  obtain ⟨r0, hw, h⟩ := h
  rw [Option.bind_eq_some] at h
  obtain ⟨r1, hl, h⟩ := h
  obtain ⟨w1, he0, hw1ne, hw1a, _⟩ := ws1_some hw
  have he1 := lit_some hl
  obtain ⟨w2, he2, hw2a⟩ := ws0_decomp r1
  obtain ⟨neg, ds, he3, hdsne, hdsa, _, hv⟩ := sInt_some h
  refine ⟨w1, w2, neg, ds, ?_, hw1ne, hw1a, hw2a, hdsne, hdsa, hv⟩
  rw [he0, he1, he2, he3]

lemma parseFix_eq {tag w1 a b : List Char} (r : List Char)
    (hw1 : w1 ≠ []) (hw1a : ∀ x ∈ w1, isWs x = true)
    (htag : ∀ x, (tag ++ (a ++ ('.' :: (b ++ ('m' :: 'V' :: r))))).head? = some x →
      isWs x = false)
    (ha : a ≠ []) (haa : ∀ x ∈ a, isDig x = true)
    (hb : b ≠ []) (hba : ∀ x ∈ b, isDig x = true) :
    parseFix tag (w1 ++ (tag ++ (a ++ ('.' :: (b ++ ('m' :: 'V' :: r))))))
      = some (a, b, r) := by
  have h1 : ws1 (w1 ++ (tag ++ (a ++ ('.' :: (b ++ ('m' :: 'V' :: r))))))
      = some (tag ++ (a ++ ('.' :: (b ++ ('m' :: 'V' :: r))))) := ws1_eq _ hw1 hw1a htag
  have h2 : lit tag (tag ++ (a ++ ('.' :: (b ++ ('m' :: 'V' :: r)))))
      = some (a ++ ('.' :: (b ++ ('m' :: 'V' :: r)))) := lit_eq _ _
  have h3 : digits1 (a ++ ('.' :: (b ++ ('m' :: 'V' :: r))))
      = some (a, '.' :: (b ++ ('m' :: 'V' :: r))) :=
    digits1_eq _ ha haa (head_cons_not_dig _ (by decide))
  have h4 : lit ['.'] ('.' :: (b ++ ('m' :: 'V' :: r))) = some (b ++ ('m' :: 'V' :: r)) :=
    lit_eq ['.'] _
  have h5 : digits1 (b ++ ('m' :: 'V' :: r)) = some (b, 'm' :: 'V' :: r) :=
    digits1_eq _ hb hba (head_cons_not_dig _ (by decide))
  have h6 : lit ['m', 'V'] ('m' :: 'V' :: r) = some r := lit_eq ['m', 'V'] r
  simp [parseFix, h1, h2, h3, h4, h5, h6]

lemma parseFix_some {tag l : List Char} {a b r : List Char}
    (h : parseFix tag l = some (a, b, r)) :
    ∃ w1, l = w1 ++ (tag ++ (a ++ ('.' :: (b ++ ('m' :: 'V' :: r))))) ∧
      w1 ≠ [] ∧ (∀ x ∈ w1, isWs x = true) ∧
      a ≠ [] ∧ (∀ x ∈ a, isDig x = true) ∧ b ≠ [] ∧ (∀ x ∈ b, isDig x = true) := by
  unfold parseFix at h
  rw [Option.bind_eq_some] at h
  obtain ⟨r0, hw, h⟩ := h
  rw [Option.bind_eq_some] at h
  obtain ⟨r1, hl, h⟩ := h
  rw [Option.bind_eq_some] at h
  obtain ⟨⟨a', r2⟩, hd1, h⟩ := h
  simp only [Option.bind_eq_some] at h
  obtain ⟨r3, hdot, h⟩ := h
  obtain ⟨⟨b', r4⟩, hd2, h⟩ := h
  simp only [Option.map_eq_some'] at h
  obtain ⟨r5, hmv, habr⟩ := h
  rw [Prod.mk.injEq] at habr
  obtain ⟨ha', h'⟩ := habr
  rw [Prod.mk.injEq] at h'
  obtain ⟨hb', hr'⟩ := h'
  subst ha'
  subst hb'
  subst hr'
  obtain ⟨w1, he0, hw1ne, hw1a, _⟩ := ws1_some hw
  have he1 := lit_some hl
  obtain ⟨he2, hane, haa, _⟩ := digits1_some hd1
  have he3 := lit_some hdot
  obtain ⟨he4, hbne, hba, _⟩ := digits1_some hd2
  have he5 := lit_some hmv
  refine ⟨w1, ?_, hw1ne, hw1a, hane, haa, hbne, hba⟩
  rw [he0, he1, he2, he3, he4, he5]
  simp

lemma parse_render (p : WireParts) (h : p.good) :
    parseLine p.render = some p.sample := by
  obtain ⟨hc, hw1, hw1a, hw2a, hmds, hmdsa, hw3, hw3a, hw4a, hxds, hxdsa, hw5, hw5a,
    hai, haia, had, hada, hw6, hw6a, hri, hria, hrd, hrda⟩ := h
  have hM : isWs 'M' = false := by decide
  have hA : isWs 'A' = false := by decide
  have hR : isWs 'R' = false := by decide
  simp only [WireParts.render, WireParts.sample]
  unfold parseLine
  rw [parseHeader_eq _ hc, Option.some_bind]
  dsimp only
  rw [parseSigned_eq _ hw1 hw1a (head_cons_not_ws _ hM) hw2a hmds hmdsa
    (wsRun_head_not_dig _ hw3 hw3a), Option.some_bind]
  dsimp only
  rw [parseSigned_eq _ hw3 hw3a (head_cons_not_ws _ hM) hw4a hxds hxdsa
    (wsRun_head_not_dig _ hw5 hw5a), Option.some_bind]
  dsimp only
  rw [parseFix_eq _ hw5 hw5a (head_cons_not_ws _ hA) hai haia had hada,
    Option.some_bind]
  dsimp only
  rw [parseFix_eq _ hw6 hw6a (head_cons_not_ws _ hR) hri hria hrd hrda,
    Option.some_bind]

lemma parse_shape {l : List Char} {s : Sample} (h : parseLine l = some s) :
    ∃ p : WireParts, p.good ∧ p.render = l ∧ p.sample = s := by
  unfold parseLine at h
  rw [Option.bind_eq_some] at h
  obtain ⟨⟨c, r1⟩, hhd, h⟩ := h
  simp only [Option.bind_eq_some] at h
  obtain ⟨⟨mn, r2⟩, hmin, h⟩ := h
  obtain ⟨⟨mx, r3⟩, hmax, h⟩ := h
  obtain ⟨⟨ai, ad, r4⟩, hamp, h⟩ := h
  obtain ⟨⟨ri, rd, r5⟩, hrms, h⟩ := h
  dsimp only at hmax hamp hrms h
  rw [Option.some.injEq] at h
  obtain ⟨hl1, hcdig⟩ := parseHeader_some hhd
  obtain ⟨w1, w2, mneg, mds, hl2, hw1ne, hw1a, hw2a, hmdsne, hmdsa, hveq1⟩ :=
    parseSigned_some hmin
  obtain ⟨w3, w4, xneg, xds, hl3, hw3ne, hw3a, hw4a, hxdsne, hxdsa, hveq2⟩ :=
    parseSigned_some hmax
  obtain ⟨w5, hl4, hw5ne, hw5a, haine, haia, hadne, hada⟩ := parseFix_some hamp
  obtain ⟨w6, hl5, hw6ne, hw6a, hrine, hria, hrdne, hrda⟩ := parseFix_some hrms
  refine ⟨⟨c, w1, w2, w3, w4, w5, w6, mneg, mds, xneg, xds, ai, ad, ri, rd, r5⟩,
    ⟨hcdig, hw1ne, hw1a, hw2a, hmdsne, hmdsa, hw3ne, hw3a, hw4a, hxdsne, hxdsa,
      hw5ne, hw5a, haine, haia, hadne, hada, hw6ne, hw6a, hrine, hria, hrdne, hrda⟩,
    ?_, ?_⟩
  · simp only [WireParts.render]
    rw [hl1, hl2, hl3, hl4, hl5]
  · simp only [WireParts.sample]
    rw [← hveq1, ← hveq2]
    exact h

lemma parse_of_shape {l : List Char} (h : WireShaped l) :
    ∃ s : Sample, parseLine l = some s := by
  obtain ⟨p, hg, hr⟩ := h
  exact ⟨p.sample, hr ▸ parse_render p hg⟩

/-- C1: for every input line matching the text wire pattern — rendered from a
channel digit, whitespace runs, signed `MIN`/`MAX` digit runs and `AMP`/`RMS`
integer and fractional digit runs — `parse_line` returns a sample whose
channel, minimum and maximum equal the integers written in the line exactly,
and whose amplitude and rms equal `int_part + frac_part / 1000`. -/
theorem text_decode_sound (p : WireParts) (h : p.good) :
    parseLine p.render = some
      { mic := digitVal p.chan,
        min := intVal p.mneg p.mds,
        max := intVal p.xneg p.xds,
        amplitude := (natOfDigits p.ai : ℚ) + (natOfDigits p.ad : ℚ) / 1000,
        rms := (natOfDigits p.ri : ℚ) + (natOfDigits p.rd : ℚ) / 1000 } :=
  parse_render p h

/-- C1 witness: the line `A2:  MIN=-120 MAX=340 AMP=12.500mV RMS=8.250mV`
decodes to channel 2, min −120, max 340, amplitude 12.5, rms 8.25. -/
theorem text_decode_sound_witness :
    parseLine ("A2:  MIN=-120 MAX=340 AMP=12.500mV RMS=8.250mV".toList)
      = some { mic := 2, min := -120, max := 340,
               amplitude := 25 / 2, rms := 33 / 4 } := by
  have h := text_decode_sound exParts (by decide)
  have hr : "A2:  MIN=-120 MAX=340 AMP=12.500mV RMS=8.250mV".toList
      = exParts.render := by decide
  rw [hr, h]
  simp only [exParts]
  rw [show digitVal '2' = 2 from by decide,
    show intVal true ['1', '2', '0'] = -120 from by decide,
    show intVal false ['3', '4', '0'] = 340 from by decide,
    show natOfDigits ['1', '2'] = 12 from by decide,
    show natOfDigits ['5', '0', '0'] = 500 from by decide,
    show natOfDigits ['8'] = 8 from by decide,
    show natOfDigits ['2', '5', '0'] = 250 from by decide]
  norm_num

/-- C2 counterexample: the claim says a channel tag outside 0..5 makes
`parse_line` return "no match", but the pattern `A(\d)` accepts any single
digit: the line `A7:  MIN=-120 MAX=340 AMP=12.500mV RMS=8.250mV` — whose
channel tag 7 is outside 0..5 — decodes to a sample with mic = 7 instead of
returning `none`. -/
theorem channel_seven_decodes :
    parseLine ("A7:  MIN=-120 MAX=340 AMP=12.500mV RMS=8.250mV".toList)
      = some { mic := 7, min := -120, max := 340,
               amplitude := 25 / 2, rms := 33 / 4 } := by
  have h : parseLine ("A7:  MIN=-120 MAX=340 AMP=12.500mV RMS=8.250mV".toList)
      = some { mic := 7, min := -120, max := 340,
               amplitude := (12 : ℚ) + 500 / 1000, rms := (8 : ℚ) + 250 / 1000 } := by
    rfl
  rw [h]
  norm_num

/-- C2 amended: for every malformed input line — every line that is not of
the wire shape (missing field, non-numeric value where a number is expected,
or a non-digit channel tag) — `parse_line` returns "no match" (`none`), and,
being a total function into `Option`, never raises; a single-digit channel
tag 6–9 is however accepted by the pattern. -/
theorem malformed_line_no_match (l : List Char) (h : ¬ WireShaped l) :
    parseLine l = none := by
  cases hp : parseLine l with
  | none => rfl
  | some s =>
    obtain ⟨p, hg, hr, _⟩ := parse_shape hp
    exact absurd ⟨p, hg, hr⟩ h

/-- C2 witness: the line `A2: MIN=-120 MAX=340 AMP=12.500mV` (missing its
RMS field) is not wire-shaped, and the decoder returns `none` on it. -/
theorem malformed_line_no_match_witness :
    parseLine ("A2: MIN=-120 MAX=340 AMP=12.500mV".toList) = none := by
  apply malformed_line_no_match
  intro hs
  obtain ⟨s, hsome⟩ := parse_of_shape hs
  have hnone : parseLine ("A2: MIN=-120 MAX=340 AMP=12.500mV".toList) = none := by
    decide
  rw [hnone] at hsome
  exact Option.noConfusion hsome

/-- C8 counterexample: the claim says inserting whitespace between a field's
`=` and its number never changes whether the line decodes, for MIN, MAX, AMP
and RMS alike; but the pattern has no `\s*` after `AMP=`: inserting one space
after `AMP=` in the valid example line makes the decoder reject it. -/
theorem amp_whitespace_rejected :
    parseLine ("A2:  MIN=-120 MAX=340 AMP= 12.500mV RMS=8.250mV".toList) = none ∧
    parseLine ("A2:  MIN=-120 MAX=340 AMP=12.500mV RMS=8.250mV".toList) ≠ none := by
  constructor
  · decide
  · decide

/-- C8 amended: the whitespace tolerance between `=` and the number holds for
the MIN and MAX fields only: replacing the whitespace runs after `MIN=` and
`MAX=` by any other whitespace runs (longer, shorter or empty) never changes
whether the line decodes nor the values recovered; whitespace after `AMP=`
or `RMS=` instead fails the match (see the counterexample). -/
theorem minmax_whitespace_tolerant (p : WireParts) (w2' w4' : List Char)
    (h : p.good) (h2 : ∀ x ∈ w2', isWs x = true) (h4 : ∀ x ∈ w4', isWs x = true) :
    parseLine ({ p with w2 := w2', w4 := w4' } : WireParts).render
      = parseLine p.render := by
  obtain ⟨hc, hw1, hw1a, hw2a, hmds, hmdsa, hw3, hw3a, hw4a, hxds, hxdsa, hw5, hw5a,
    hai, haia, had, hada, hw6, hw6a, hri, hria, hrd, hrda⟩ := h
  have hg' : ({ p with w2 := w2', w4 := w4' } : WireParts).good :=
    ⟨hc, hw1, hw1a, h2, hmds, hmdsa, hw3, hw3a, h4, hxds, hxdsa, hw5, hw5a,
      hai, haia, had, hada, hw6, hw6a, hri, hria, hrd, hrda⟩
  rw [parse_render _ hg',
    parse_render p ⟨hc, hw1, hw1a, hw2a, hmds, hmdsa, hw3, hw3a, hw4a, hxds, hxdsa,
      hw5, hw5a, hai, haia, had, hada, hw6, hw6a, hri, hria, hrd, hrda⟩]
  rfl

/-- C8 amended witness: `MIN=-120` and `MIN=   -120` (three spaces) decode
identically in the example line. -/
theorem minmax_whitespace_tolerant_witness :
    parseLine ({ exParts with w2 := [' ', ' ', ' '], w4 := [] } : WireParts).render
      = parseLine exParts.render := by
  exact minmax_whitespace_tolerant exParts [' ', ' ', ' '] [] (by decide)
    (by decide) (by decide)

/-- C9: for every line accepted by the text decoder the fractional parts of
AMP and RMS are divided by the constant 1000 regardless of how many digits
they contain: the decoder accepts fractional digit runs of any nonzero
length, and the amplitude decoded is always
`int_digits + frac_digits / 1000`. -/
theorem fraction_scaled_by_thousand (p : WireParts) (h : p.good) :
    (parseLine p.render).map Sample.amplitude
        = some ((natOfDigits p.ai : ℚ) + (natOfDigits p.ad : ℚ) / 1000) ∧
    (parseLine p.render).map Sample.rms
        = some ((natOfDigits p.ri : ℚ) + (natOfDigits p.rd : ℚ) / 1000) := by
  rw [parse_render p h]
  exact ⟨rfl, rfl⟩

/-- C9 witness: `AMP=12.5mV` decodes to amplitude 12 + 5/1000 = 12.005
(not 12.5), and `AMP=12.5000mV` decodes to 12 + 5000/1000 = 17. -/
theorem fraction_scaled_by_thousand_witness :
    (parseLine ("A2:  MIN=-120 MAX=340 AMP=12.5mV RMS=8.250mV".toList)).map
        Sample.amplitude = some (12005 / 1000 : ℚ) ∧
    (parseLine ("A2:  MIN=-120 MAX=340 AMP=12.5000mV RMS=8.250mV".toList)).map
        Sample.amplitude = some (17 : ℚ) := by
  have h1 := (fraction_scaled_by_thousand exPartsShortFrac (by decide)).1
  have h2 := (fraction_scaled_by_thousand exPartsLongFrac (by decide)).1
  have hr1 : "A2:  MIN=-120 MAX=340 AMP=12.5mV RMS=8.250mV".toList
      = exPartsShortFrac.render := by decide
  have hr2 : "A2:  MIN=-120 MAX=340 AMP=12.5000mV RMS=8.250mV".toList
      = exPartsLongFrac.render := by decide
  constructor
  · rw [hr1, h1]
    simp only [exPartsShortFrac, exParts]
    rw [show natOfDigits ['1', '2'] = 12 from by decide,
      show natOfDigits ['5'] = 5 from by decide]
    norm_num
  · rw [hr2, h2]
    simp only [exPartsLongFrac, exParts]
    rw [show natOfDigits ['1', '2'] = 12 from by decide,
      show natOfDigits ['5', '0', '0', '0'] = 5000 from by decide]
    norm_num

lemma lastN_of_le {α : Type} {n : Nat} {l : List α} (h : l.length ≤ n) :
    lastN n l = l := by
  unfold lastN
  rw [Nat.sub_eq_zero_of_le h, List.drop_zero]

lemma lastN_length {α : Type} (n : Nat) (l : List α) :
    (lastN n l).length = min n l.length := by
  unfold lastN
  rw [List.length_drop]
  by_cases h : l.length ≤ n
  · rw [Nat.sub_eq_zero_of_le h, Nat.sub_zero, min_eq_right h]
  · have h' : n ≤ l.length := Nat.le_of_not_le h
    rw [min_eq_left h']
    omega

lemma lastN_lastN_append {α : Type} (n : Nat) (a b : List α) :
    lastN n (lastN n a ++ b) = lastN n (a ++ b) := by
  by_cases h : a.length ≤ n
  · rw [lastN_of_le h]
  · have hlt : n < a.length := Nat.lt_of_not_le h
    have hk : a.length - n ≤ a.length := Nat.sub_le _ _
    unfold lastN
    rw [← List.drop_append_of_le_length hk, List.drop_drop]
    congr 1
    simp only [List.length_drop, List.length_append]
    omega

lemma pushAll_buf {α : Type} (xs : List α) :
    ∀ (n : Nat) (b : List α), b.length ≤ n →
      Dq.pushAll ⟨n, b⟩ xs = ⟨n, lastN n (b ++ xs)⟩ := by
  induction xs with
  | nil =>
    intro n b hb
    show (⟨n, b⟩ : Dq α) = _
    rw [List.append_nil, lastN_of_le hb]
  | cons x xs ih =>
    intro n b hb
    show Dq.pushAll ⟨n, lastN n (b ++ [x])⟩ xs = _
    have hlen : (lastN n (b ++ [x])).length ≤ n := by
      rw [lastN_length]
      exact min_le_left _ _
    rw [ih n (lastN n (b ++ [x])) hlen, lastN_lastN_append]
    simp [List.append_assoc]

lemma lastN_concat_getLast {α : Type} (n : Nat) (l : List α) (v : α) (hn : 0 < n) :
    (lastN n (l ++ [v])).getLast? = some v := by
  unfold lastN
  have hle : (l ++ [v]).length - n ≤ l.length := by
    rw [List.length_append]
    simp only [List.length_cons, List.length_nil]
    omega
  rw [List.drop_append_of_le_length hle]
  exact List.getLast?_concat _

/-- C3: for every capacity `n = max_points` and every sequence of `n + k`
appends (k ≥ 0) to one series starting from the empty series created at
startup, the series afterwards has length exactly `n` and contains precisely
the `n` most recently appended values in insertion order (strict FIFO
eviction of the oldest element once capacity is reached). -/
theorem ring_buffer_fifo {α : Type} (n k : Nat) (xs : List α)
    (h : xs.length = n + k) :
    (Dq.pushAll (Dq.empty α n) xs).maxlen = n ∧
    (Dq.pushAll (Dq.empty α n) xs).buf.length = n ∧
    (Dq.pushAll (Dq.empty α n) xs).buf = xs.drop k := by
  have hp := pushAll_buf xs n [] (by simp)
  rw [show Dq.empty α n = (⟨n, []⟩ : Dq α) from rfl, hp]
  refine ⟨rfl, ?_, ?_⟩
  · show (lastN n ([] ++ xs)).length = n
    rw [List.nil_append, lastN_length, h, min_eq_left (Nat.le_add_right n k)]
  · show lastN n ([] ++ xs) = xs.drop k
    rw [List.nil_append]
    unfold lastN
    rw [h]
    congr 1
    omega

/-- C3 witness: with capacity 3, after five appends the series holds exactly
the last three values in order. -/
theorem ring_buffer_fifo_witness :
    (Dq.pushAll (Dq.empty Nat 3) [10, 20, 30, 40, 50]).buf = [30, 40, 50] ∧
    (Dq.pushAll (Dq.empty Nat 3) [10, 20, 30, 40, 50]).buf.length = 3 := by
  have h := ring_buffer_fifo 3 2 [10, 20, 30, 40, 50] (by decide)
  exact ⟨h.2.2.trans (by decide), h.2.1⟩

/-- C10: a decode-and-append step for a sample of channel `mic < 6` appends
exactly one element to the tail of each of that channel's five series (with
FIFO eviction when the capacity is reached), leaves every series of every
other channel unchanged, and leaves the capacity of every series unchanged. -/
theorem append_step_frame (st : Store) (p : Sample) (now : ℚ) (h : p.mic < 6) :
    ((st.appendSample p now h).time ⟨p.mic, h⟩).buf
        = lastN ((st.time ⟨p.mic, h⟩).maxlen) ((st.time ⟨p.mic, h⟩).buf ++ [now]) ∧
    ((st.appendSample p now h).rms ⟨p.mic, h⟩).buf
        = lastN ((st.rms ⟨p.mic, h⟩).maxlen) ((st.rms ⟨p.mic, h⟩).buf ++ [p.rms]) ∧
    ((st.appendSample p now h).min ⟨p.mic, h⟩).buf
        = lastN ((st.min ⟨p.mic, h⟩).maxlen) ((st.min ⟨p.mic, h⟩).buf ++ [p.min]) ∧
    ((st.appendSample p now h).max ⟨p.mic, h⟩).buf
        = lastN ((st.max ⟨p.mic, h⟩).maxlen) ((st.max ⟨p.mic, h⟩).buf ++ [p.max]) ∧
    ((st.appendSample p now h).amplitude ⟨p.mic, h⟩).buf
        = lastN ((st.amplitude ⟨p.mic, h⟩).maxlen)
            ((st.amplitude ⟨p.mic, h⟩).buf ++ [p.amplitude]) ∧
    (0 < (st.time ⟨p.mic, h⟩).maxlen →
      ((st.appendSample p now h).time ⟨p.mic, h⟩).buf.getLast? = some now) ∧
    (∀ j : Fin 6, j ≠ ⟨p.mic, h⟩ →
      (st.appendSample p now h).time j = st.time j ∧
      (st.appendSample p now h).rms j = st.rms j ∧
      (st.appendSample p now h).min j = st.min j ∧
      (st.appendSample p now h).max j = st.max j ∧
      (st.appendSample p now h).amplitude j = st.amplitude j) ∧
    (∀ j : Fin 6,
      ((st.appendSample p now h).time j).maxlen = (st.time j).maxlen ∧
      ((st.appendSample p now h).rms j).maxlen = (st.rms j).maxlen ∧
      ((st.appendSample p now h).min j).maxlen = (st.min j).maxlen ∧
      ((st.appendSample p now h).max j).maxlen = (st.max j).maxlen ∧
      ((st.appendSample p now h).amplitude j).maxlen = (st.amplitude j).maxlen) := by
  refine ⟨?_, ?_, ?_, ?_, ?_, ?_, ?_, ?_⟩
  · simp [Store.appendSample, Function.update_same, Dq.push]
  · simp [Store.appendSample, Function.update_same, Dq.push]
  · simp [Store.appendSample, Function.update_same, Dq.push]
  · simp [Store.appendSample, Function.update_same, Dq.push]
  · simp [Store.appendSample, Function.update_same, Dq.push]
  · intro hn
    simp only [Store.appendSample, Function.update_same, Dq.push]
    exact lastN_concat_getLast _ _ _ hn
  · intro j hj
    simp [Store.appendSample, Function.update_noteq hj]
  · intro j
    by_cases hj : j = ⟨p.mic, h⟩
    · subst hj
      simp [Store.appendSample, Function.update_same, Dq.push]
    · simp [Store.appendSample, Function.update_noteq hj]

/-- C10 witness: appending the example sample at time 1 into the empty store
of capacity 2 puts `[1]` in channel 2's time series and leaves channel 0's
time series empty. -/
theorem append_step_frame_witness :
    (((Store.empty 2).appendSample sampleEx 1 (by decide)).time
        ⟨sampleEx.mic, by decide⟩).buf = [1] ∧
    (((Store.empty 2).appendSample sampleEx 1 (by decide)).time 0).buf = [] := by
  have h := append_step_frame (Store.empty 2) sampleEx 1 (by decide)
  constructor
  · exact h.1.trans (by decide)
  · rw [(h.2.2.2.2.2.2.1 0 (by decide)).1]
    rfl

/-- C7: the estimator counts decoded samples; whenever at a sample arrival at
least one second has elapsed since the last reset it publishes
`rate = count / elapsed` (the count including the arriving sample) and resets
the count to zero and the timer to the current time; otherwise — between such
resets — the previously published rate and the timer are retained unchanged
and only the count advances. -/
theorem frequency_estimator_step (f : Freq) (now : ℚ) :
    (1 ≤ now - f.lastSampleTime →
      freqStep f now
        = { sampleCount := 0,
            lastSampleTime := now,
            samplingFreq := ((f.sampleCount + 1 : Nat) : ℚ) / (now - f.lastSampleTime) }) ∧
    (now - f.lastSampleTime < 1 →
      freqStep f now
        = { sampleCount := f.sampleCount + 1,
            lastSampleTime := f.lastSampleTime,
            samplingFreq := f.samplingFreq }) := by
  constructor
  · intro hge
    simp [freqStep, hge]
  · intro hlt
    simp [freqStep, not_le.mpr hlt]

/-- C7 witness: three samples counted, a fourth arrives two seconds after the
last reset: the estimator publishes 4 / 2 = 2 Hz and resets; one arriving
after half a second only advances the count. -/
theorem frequency_estimator_step_witness :
    freqStep { sampleCount := 3, lastSampleTime := 0, samplingFreq := 0 } 2
      = { sampleCount := 0, lastSampleTime := 2, samplingFreq := 2 } ∧
    freqStep { sampleCount := 3, lastSampleTime := 0, samplingFreq := 7 } (1 / 2)
      = { sampleCount := 4, lastSampleTime := 0, samplingFreq := 7 } := by
  have h1 := (frequency_estimator_step
    { sampleCount := 3, lastSampleTime := 0, samplingFreq := 0 } 2).1 (by norm_num)
  have h2 := (frequency_estimator_step
    { sampleCount := 3, lastSampleTime := 0, samplingFreq := 7 } (1 / 2)).2 (by norm_num)
  constructor
  · rw [h1]
    norm_num
  · rw [h2]

lemma loopBody_running (st : MState) (ev : Event) :
    (loopBody st ev).1.running = st.running := by
  cases ev with
  | fault f => rfl
  | noData => rfl
  | line s now =>
    unfold loopBody loopBodyInner
    dsimp only
    cases parseLine s with
    | none => rfl
    | some p =>
      dsimp only
      by_cases h : p.mic < 6
      · rw [dif_pos h]
      · rw [dif_neg h]

lemma runLoop_keeps_running (tr : List Event) :
    ∀ st : MState, st.running = true → (runLoop st tr).1.running = true := by
  induction tr with
  | nil => intro st h; exact h
  | cons e es ih =>
    intro st h
    unfold runLoop
    rw [if_pos h]
    exact ih (loopBody st e).1 ((loopBody_running st e).trans h)

/-- C6: every fault raised by the transport read (or anywhere inside the try
block) is caught at the loop boundary: the iteration returns normally with
the same state, reports the fault and backs off for 0.1 s — longer than the
1 ms idle poll interval; the `running` flag is never cleared by an iteration,
so the loop keeps iterating after any fault and terminates only when `stop`
clears `running`, upon which it stops at once. -/
theorem capture_loop_fault_tolerance (st : MState) (ev : Event) (f : Fault)
    (hf : loopBodyInner st ev = .error f) :
    loopBody st ev = (st, [.report f, .sleep backoffSleep]) ∧
    pollSleep < backoffSleep ∧
    (loopBody st ev).1.running = st.running ∧
    (∀ tr : List Event, ∀ st1 : MState, st1.running = true →
      (runLoop st1 tr).1.running = true) ∧
    (∀ tr : List Event, ∀ st1 : MState, st1.running = false →
      runLoop st1 tr = (st1, [])) := by
  refine ⟨?_, ?_, loopBody_running st ev, ?_, ?_⟩
  · unfold loopBody
    rw [hf]
  · norm_num [pollSleep, backoffSleep]
  · intro tr st1 h
    exact runLoop_keeps_running tr st1 h
  · intro tr st1 h
    cases tr with
    | nil => rfl
    | cons e es =>
      unfold runLoop
      rw [if_neg (by rw [h]; exact Bool.false_ne_true)]

/-- C6 witness: from a running state with an empty store, an I/O fault during
the read is caught, reported, and followed by the 0.1 s backoff, which
exceeds the 1 ms poll sleep. -/
theorem capture_loop_fault_tolerance_witness :
    loopBody
      { running := true,
        store := Store.empty 100,
        freq := { sampleCount := 0, lastSampleTime := 0, samplingFreq := 0 } }
      (.fault .ioError)
      = ({ running := true,
           store := Store.empty 100,
           freq := { sampleCount := 0, lastSampleTime := 0, samplingFreq := 0 } },
         [.report .ioError, .sleep backoffSleep]) ∧
    pollSleep < backoffSleep := by
  have h := capture_loop_fault_tolerance
    { running := true,
      store := Store.empty 100,
      freq := { sampleCount := 0, lastSampleTime := 0, samplingFreq := 0 } }
    (.fault .ioError) .ioError rfl
  exact ⟨h.1, h.2.1⟩

lemma currentTimeOf_acc_le (times : Fin 6 → List ℚ) :
    ∀ (l : List (Fin 6)) (acc : ℚ),
      acc ≤ l.foldl
        (fun acc i =>
          match (times i).getLast? with
          | some t => max acc t
          | none => acc)
        acc := by
  intro l
  induction l with
  | nil => intro acc; exact le_refl acc
  | cons j l ih =>
    intro acc
    rw [List.foldl_cons]
    refine le_trans ?_ (ih _)
    cases (times j).getLast? with
    | none => exact le_refl acc
    | some t => exact le_max_left acc t

lemma currentTimeOf_mem_ge (times : Fin 6 → List ℚ) (i : Fin 6) (hi : ℚ)
    (h : (times i).getLast? = some hi) :
    ∀ (l : List (Fin 6)) (acc : ℚ), i ∈ l →
      hi ≤ l.foldl
        (fun acc i =>
          match (times i).getLast? with
          | some t => max acc t
          | none => acc)
        acc := by
  intro l
  induction l with
  | nil => intro acc hmem; exact absurd hmem (List.not_mem_nil i)
  | cons j l ih =>
    intro acc hmem
    rw [List.foldl_cons]
    rcases List.mem_cons.mp hmem with hij | hil
    · subst hij
      refine le_trans ?_ (currentTimeOf_acc_le times l _)
      rw [h]
      exact le_max_right acc hi
    · exact ih _ hil

lemma currentTimeOf_ge (times : Fin 6 → List ℚ) (i : Fin 6) (hi : ℚ)
    (h : (times i).getLast? = some hi) : hi ≤ currentTimeOf times :=
  currentTimeOf_mem_ge times i hi h (List.finRange 6) 0 (List.mem_finRange i)

/-- C5 counterexample: the claim says that with "show full history" set the
visible x-range is `[0, t_now]` for every state of the series; but the code
sets no x-limit in that mode and the axis is autoscaled to the data extent.
With a single retained timestamp 5 on channel 0 (`t_now = 5`) the visible
range is `[5, 5]`, not `[0, 5]`. -/
theorem full_history_range_not_zero_based :
    currentTimeOf singleLateTimes = 5 ∧
    adjustXlim true (some 10) (currentTimeOf singleLateTimes)
        ((singleLateTimes 0).head?.getD 0) ((singleLateTimes 0).getLast?.getD 0)
      = (5, 5) ∧
    ((5 : ℚ), (5 : ℚ)) ≠ ((0 : ℚ), currentTimeOf singleLateTimes) := by
  refine ⟨by decide, by decide, by decide⟩

/-- C5 amended: with `t_now` the maximum timestamp across all channel
series (0 when all are empty) and `w` the configured window width: when
"show full history" is not set the visible x-range is
`[max(0, t_now − w), t_now]` exactly as claimed; when it is set the code
leaves the axis autoscaled to the extent `[oldest, newest]` of the channel's
retained data — equal to `[0, t_now]` only when a sample with timestamp 0 is
still retained and the channel attains the global maximum — and the data
extent never reaches past `t_now`. -/
theorem windowing_policy (showAll : Bool) (w : ℚ) (times : Fin 6 → List ℚ)
    (i : Fin 6) (lo hi : ℚ)
    (hlo : (times i).head? = some lo) (hhi : (times i).getLast? = some hi) :
    (showAll = false →
      adjustXlim showAll (some w) (currentTimeOf times) lo hi
        = (max 0 (currentTimeOf times - w), currentTimeOf times)) ∧
    (showAll = true →
      adjustXlim showAll (some w) (currentTimeOf times) lo hi = (lo, hi)) ∧
    hi ≤ currentTimeOf times := by
  refine ⟨?_, ?_, currentTimeOf_ge times i hi hhi⟩
  · intro hs
    subst hs
    simp [adjustXlim]
  · intro hs
    subst hs
    simp [adjustXlim]

/-- C5 witness: with timestamps 0..50 and window width 10 the sliding-window
range is [40, 50]; for these series (oldest timestamp 0, newest 50) the
full-history range is [0, 50]. -/
theorem windowing_policy_witness :
    adjustXlim false (some 10) (currentTimeOf specTimes) 0 50 = (40, 50) ∧
    adjustXlim true (some 10) (currentTimeOf specTimes) 0 50 = (0, 50) := by
  have hlo : (specTimes 0).head? = some 0 := by decide
  have hhi : (specTimes 0).getLast? = some 50 := by decide
  have h1 := (windowing_policy false 10 specTimes 0 0 50 hlo hhi).1 rfl
  have h2 := (windowing_policy true 10 specTimes 0 0 50 hlo hhi).2.1 rfl
  have hct : currentTimeOf specTimes = 50 := by decide
  constructor
  · rw [h1, hct]
    norm_num
  · exact h2

/-- C4: for every byte buffer (spec-modelled decoder): a 12-byte input
decodes to exactly 6 samples whose values are the little-endian signed
16-bit interpretation of each consecutive 2-byte slice in channel order
0..5 with nothing buffered; prepending those 12 bytes to any remainder of
at most 11 bytes (hence any 12–23 byte input) decodes exactly 1 frame and
leaves the remainder buffered for the next call; and any 0–11 byte input
decodes 0 frames and buffers everything. -/
theorem binary_decoder_frames
    (b0 b1 b2 b3 b4 b5 b6 b7 b8 b9 b10 b11 : Nat) (rest : List Nat)
    (hb : ∀ x ∈ [b0, b1, b2, b3, b4, b5, b6, b7, b8, b9, b10, b11], x < 256)
    (hrest : rest.length ≤ 11) :
    decodeFrames ([b0, b1, b2, b3, b4, b5, b6, b7, b8, b9, b10, b11] ++ rest)
      = ([[toInt16 (b0 + 256 * b1), toInt16 (b2 + 256 * b3),
           toInt16 (b4 + 256 * b5), toInt16 (b6 + 256 * b7),
           toInt16 (b8 + 256 * b9), toInt16 (b10 + 256 * b11)]], rest) ∧
    (∀ short : List Nat, short.length ≤ 11 → decodeFrames short = ([], short)) := by
  have hshort : ∀ short : List Nat, short.length ≤ 11 →
      decodeFrames short = ([], short) := by
    intro short hs
    unfold decodeFrames
    rw [dif_neg (by omega)]
  constructor
  · have hlen : ([b0, b1, b2, b3, b4, b5, b6, b7, b8, b9, b10, b11] ++ rest).length
        = 12 + rest.length := by
      simp only [List.length_append, List.length_cons, List.length_nil]
    unfold decodeFrames
    rw [dif_pos (by omega)]
    rw [List.take_left' (by rfl), List.drop_left' (by rfl)]
    rw [hshort rest hrest]
    rfl
  · exact hshort

/-- C4 witness: the 12-byte frame `34 12 FF FF 00 80 01 00 00 00 FF 7F`
followed by 3 buffered bytes decodes to the single frame
`[4660, −1, −32768, 1, 0, 32767]` with the 3 bytes left for the next call;
a 3-byte input decodes no frame. -/
theorem binary_decoder_frames_witness :
    decodeFrames ([0x34, 0x12, 0xFF, 0xFF, 0x00, 0x80, 1, 0, 0, 0, 0xFF, 0x7F]
        ++ [9, 9, 9])
      = ([[4660, -1, -32768, 1, 0, 32767]], [9, 9, 9]) ∧
    decodeFrames [1, 2, 3] = ([], [1, 2, 3]) := by
  have h := binary_decoder_frames 0x34 0x12 0xFF 0xFF 0x00 0x80 1 0 0 0 0xFF 0x7F
    [9, 9, 9] (by decide) (by decide)
  exact ⟨h.1.trans (by decide), h.2 [1, 2, 3] (by decide)⟩

end MicMon
